import Mathlib

/-!
Verification development for the `bedrock-core/network` repository: a shallow
embedding of the rule-driven directed-graph core (`src/src/core/types.ts`,
`src/src/core/manager.ts`) and of the breadth-first traversal
(`src/src/algorithms/bfs.ts`), together with theorems settling the frozen
claims about the natural-language specification.
-/

namespace BedrockNetwork

/-- Direction a rule applies to (`RuleDirection` in src/src/core/types.ts):
`outgoing` initiates connections, `incoming` accepts them, `both` does both. -/
inductive RuleDirection where
  | outgoing
  | incoming
  | both
deriving DecidableEq, Repr

/-- Edge-generation rule (`Rule<T>` in src/src/core/types.ts): an optional
`direction` (defaulting to `both` when absent), the `match` predicate
(named `match_` here because `match` is a Lean keyword), and an optional
`targetFilter` pre-filter used only on the initiating side. -/
structure Rule (T : Type) where
  direction : Option RuleDirection := none
  match_ : T → T → Bool
  targetFilter : Option (T → Bool) := none

/-- Node stored in the graph (`Node<T>` in src/src/core/types.ts): a unique
stable id, a domain payload, and the rule sequence captured at creation. -/
structure Node (T : Type) where
  id : String
  data : T
  rules : List (Rule T)

/-- Modelled from the spec: the graph store. `Network<T>` in
src/src/core/types.ts extends the `Graph` class of the external
`graph-data-structure` package, whose code is not part of this repository.
Per spec section 1 the store is a mutable directed-graph container offering
node insertion/removal, directed edge insertion/removal and adjacency-set
lookup, with set semantics (no duplicate parallel edges). Nodes are kept in
insertion order; the adjacency map is keyed by node identity (node ids are
unique in every manager-reachable state, so ids stand in for JS object
references) and node removal deletes the node's adjacency entry and its
occurrences in every other adjacency set, as the removal contract of spec
section 4.2 and the repository's tests require. An adjacency entry is
created on first edge insertion and kept (possibly empty) by edge removal,
so `adjacent` distinguishes "no entry" from "empty set" just as the JS map
does. -/
structure Network (T : Type) where
  nodes : List (Node T)
  edges : List (String × List String)

/-- Modelled from the spec: the empty store a fresh `Graph` starts from. -/
def Network.empty (T : Type) : Network T := ⟨[], []⟩

/-- Modelled from the spec: node insertion with set semantics (inserting a
node already present leaves the store unchanged). -/
def Network.addNode {T : Type} (net : Network T) (n : Node T) : Network T :=
  if net.nodes.any (fun x => x.id == n.id) then net
  else { net with nodes := net.nodes ++ [n] }

/-- Lookup of an adjacency entry in the association list backing the
adjacency map. -/
def lookupAdj : List (String × List String) → String → Option (List String)
  | [], _ => none
  | e :: rest, u => if e.1 = u then some e.2 else lookupAdj rest u

/-- Insertion of a directed edge into the adjacency association list: the
target id is appended to the source's entry unless already present (set
semantics); a missing entry is created. -/
def insertAdj : List (String × List String) → String → String → List (String × List String)
  | [], u, v => [(u, [v])]
  | e :: rest, u, v =>
    if e.1 = u then (e.1, if e.2.contains v then e.2 else e.2 ++ [v]) :: rest
    else e :: insertAdj rest u v

/-- Removal of a directed edge from the adjacency association list: the
target id is deleted from the source's entry; the entry itself remains. -/
def removeAdj : List (String × List String) → String → String → List (String × List String)
  | [], _, _ => []
  | e :: rest, u, v =>
    if e.1 = u then (e.1, e.2.filter (fun w => w ≠ v)) :: rest
    else e :: removeAdj rest u v

/-- Modelled from the spec: directed edge insertion. The external store also
ensures both endpoints are present as nodes. -/
def Network.addEdge {T : Type} (net : Network T) (u v : Node T) : Network T :=
  let net1 := (net.addNode u).addNode v
  { net1 with edges := insertAdj net1.edges u.id v.id }

/-- Modelled from the spec: directed edge removal (a no-op when the edge is
absent). -/
def Network.removeEdge {T : Type} (net : Network T) (u v : Node T) : Network T :=
  { net with edges := removeAdj net.edges u.id v.id }

/-- Modelled from the spec: node removal. The node's own adjacency entry is
deleted, the node is deleted from every other adjacency set, and the node is
deleted from the node set. -/
def Network.removeNode {T : Type} (net : Network T) (n : Node T) : Network T :=
  { nodes := net.nodes.filter (fun x => decide (x.id ≠ n.id)),
    edges := (net.edges.filter (fun e => decide (e.1 ≠ n.id))).map
      (fun e => (e.1, e.2.filter (fun w => w ≠ n.id))) }

/-- Modelled from the spec: adjacency-set lookup. Returns `none` when the
store has no adjacency entry for the node (the JS `adjacent` returns
`undefined` then); otherwise the successor node objects, resolved against
the current node set so that in-place data updates are visible, exactly as
JS object references make them. -/
def Network.adjacent {T : Type} (net : Network T) (n : Node T) : Option (List (Node T)) :=
  match lookupAdj net.edges n.id with
  | none => none
  | some ids => some (ids.filterMap (fun i => net.nodes.find? (fun x => x.id == i)))

/-- Membership of a directed edge in an adjacency association list. -/
def edgeMem (es : List (String × List String)) (u v : String) : Bool :=
  match lookupAdj es u with
  | none => false
  | some l => l.contains v

/-- Observation helper: whether the directed edge `u → v` (by node ids) is in
the store. -/
def Network.hasEdge {T : Type} (net : Network T) (u v : String) : Bool :=
  edgeMem net.edges u v

namespace NetworkManager

/-- Linear scan for a node by id (`findNode` in src/src/core/manager.ts). -/
def findNode {T : Type} (net : Network T) (id : String) : Option (Node T) :=
  net.nodes.find? (fun n => n.id == id)

/-- Effective direction of a rule: `direction ?? RuleDirection.Both` as in
`tryHandshake` (src/src/core/manager.ts). -/
def dirOf {T : Type} (r : Rule T) : RuleDirection :=
  r.direction.getD RuleDirection.both

/-- The handshake evaluation (`tryHandshake` in src/src/core/manager.ts,
lines 280-313): some source rule that is not incoming-only, passes its
optional `targetFilter` on the target's data and matches
`(source.data, target.data)`, paired with some target rule that is not
outgoing-only and matches `(target.data, source.data)`. -/
def tryHandshake {T : Type} (source target : Node T) : Bool :=
  source.rules.any fun sRule =>
    (match dirOf sRule with
      | RuleDirection.incoming => false
      | _ => true) &&
    (match sRule.targetFilter with
      | some f => f target.data
      | none => true) &&
    sRule.match_ source.data target.data &&
    target.rules.any fun tRule =>
      (match dirOf tRule with
        | RuleDirection.outgoing => false
        | _ => true) &&
      tRule.match_ target.data source.data

/-- Body of the handshake sweep loop shared by `createNode` and
`updateNodeData` (src/src/core/manager.ts): skip the node itself, try both
directed handshakes with `other` and insert the corresponding edge on
success. -/
def sweepStep {T : Type} (node : Node T) (acc : Network T) (other : Node T) : Network T :=
  if other.id == node.id then acc
  else
    let acc1 := if tryHandshake node other then acc.addEdge node other else acc
    if tryHandshake other node then acc1.addEdge other node else acc1

/-- The handshake sweep shared by `createNode` and `updateNodeData`
(src/src/core/manager.ts): for every other node, try both directed
handshakes with `node` and insert the corresponding edge on success. -/
def sweepEdges {T : Type} (net : Network T) (node : Node T) : Network T :=
  net.nodes.foldl (sweepStep node) net

/-- Node creation (`createNode` in src/src/core/manager.ts, lines 162-192):
empty-id and duplicate-id checks precede any mutation; then the node is
added and the handshake sweep runs against all current nodes. -/
def createNode {T : Type} (net : Network T) (id : String) (data : T)
    (rules : List (Rule T)) : Except String (Network T × Node T) :=
  if id = "" then Except.error "Id is required"
  else if (findNode net id).isSome then Except.error ("Duplicate node id: " ++ id)
  else
    let node : Node T := ⟨id, data, rules⟩
    let net1 := net.addNode node
    Except.ok (sweepEdges net1 node, node)

/-- Node removal (`removeNode` in src/src/core/manager.ts, lines 198-206):
a no-op when the id is absent; otherwise delegates to the store's node
removal. -/
def removeNode {T : Type} (net : Network T) (id : String) : Network T :=
  match findNode net id with
  | none => net
  | some node => net.removeNode node

/-- In-place replacement of a stored node's data (models `node.data = newData`
mutating the shared object). -/
def setData {T : Type} (net : Network T) (id : String) (d : T) : Network T :=
  { net with nodes := net.nodes.map (fun n => if n.id == id then { n with data := d } else n) }

/-- Data update with edge recalculation (`updateNodeData` in
src/src/core/manager.ts, lines 220-251): missing-node check, then removal of
both directed edges against each node in the node's adjacency set (its
outgoing successors), then the data replacement, then the handshake sweep. -/
def updateNodeData {T : Type} (net : Network T) (id : String) (newData : T) :
    Except String (Network T) :=
  match findNode net id with
  | none => Except.error ("No such node: " ++ id)
  | some node =>
    let adjacentNodes := (net.adjacent node).getD []
    let net1 := adjacentNodes.foldl
      (fun acc adj => (acc.removeEdge node adj).removeEdge adj node) net
    let net2 := setData net1 id newData
    let node2 : Node T := { node with data := newData }
    Except.ok (sweepEdges net2 node2)

/-- Node lookup (`getNode` in src/src/core/manager.ts). -/
def getNode {T : Type} (net : Network T) (id : String) : Option (Node T) :=
  findNode net id

end NetworkManager

/-- Caller-supplied traversal hooks (`BFSOptions<T>` in
src/src/algorithms/bfs.ts). `visit` returns `void | boolean`, modelled as
`Option Bool`. -/
structure BFSOptions (T : Type) where
  visit : Option (Node T → Nat → Option Bool) := none
  expand : Option (Node T → Nat → Bool) := none
  maxDepth : Option Nat := none

/-- Result of a traversal: the output `order` together with the trace of
`visit` invocations (ghost observability for the callback contract; the JS
function returns only `order`). -/
structure BfsResult (T : Type) where
  order : List (Node T)
  calls : List (Node T × Nat)

/-- Linear scan for a node by id (`findNodeById` in
src/src/algorithms/bfs.ts). -/
def findNodeById {T : Type} (net : Network T) (id : String) : Option (Node T) :=
  net.nodes.find? (fun n => n.id == id)

/-- Neighbor enqueueing loop of `bfs` (src/src/algorithms/bfs.ts, lines
88-95): each adjacent node not yet in the visited set is marked visited and
pushed at the back of the queue with depth one greater. -/
def enqueueNeighbors {T : Type} (adj : List (Node T)) (visited : List String)
    (queue : List (Node T × Nat)) (depth : Nat) : List String × List (Node T × Nat) :=
  adj.foldl
    (fun acc next =>
      if acc.1.contains next.id then acc
      else (acc.1 ++ [next.id], acc.2 ++ [(next, depth + 1)]))
    (visited, queue)

/-- Post-visit part of one `bfs` iteration (src/src/algorithms/bfs.ts, lines
74-95): the `maxDepth` guard, then the `expand` barrier, then adjacency
lookup and neighbor enqueueing; each guard leaves the visited set and queue
unchanged. -/
def bfsStep {T : Type} (net : Network T) (opts : BFSOptions T) (node : Node T)
    (depth : Nat) (visited : List String) (queue : List (Node T × Nat)) :
    List String × List (Node T × Nat) :=
  if (match opts.maxDepth with
      | some m => decide (m ≤ depth)
      | none => false) then (visited, queue)
  else if (match opts.expand with
      | some e => !(e node depth)
      | none => false) then (visited, queue)
  else
    match net.adjacent node with
    | none => (visited, queue)
    | some adj => enqueueNeighbors adj visited queue depth

/-- Fuelled worklist loop of `bfs` (src/src/algorithms/bfs.ts, lines 62-96):
dequeue from the front, append to the output, invoke `visit` (recorded in
the call trace) and return immediately when it yields `false`, otherwise run
`bfsStep`. The fuel only bounds the iteration count; `bfs` supplies enough
fuel for the loop, whose iterations cannot exceed the enqueued-node count,
to reach the empty queue. -/
def bfsAux {T : Type} (net : Network T) (opts : BFSOptions T) :
    Nat → List (Node T × Nat) → List String → List (Node T) →
    List (Node T × Nat) → BfsResult T
  | 0, _, _, order, calls => ⟨order, calls⟩
  | _ + 1, [], _, order, calls => ⟨order, calls⟩
  | fuel + 1, (node, depth) :: rest, visited, order, calls =>
    match opts.visit with
    | some v =>
      if v node depth == some false then
        ⟨order ++ [node], calls ++ [(node, depth)]⟩
      else
        let vq := bfsStep net opts node depth visited rest
        bfsAux net opts fuel vq.2 vq.1 (order ++ [node]) (calls ++ [(node, depth)])
    | none =>
      let vq := bfsStep net opts node depth visited rest
      bfsAux net opts fuel vq.2 vq.1 (order ++ [node]) calls

/-- Breadth-first traversal (`bfs` in src/src/algorithms/bfs.ts): the start
is a node object or an id string resolved by scanning the node set; an
unresolved id raises the start-not-found error naming the id; otherwise the
worklist loop runs from the start at depth zero with the start marked
visited. -/
def bfs {T : Type} (net : Network T) (start : Sum String (Node T))
    (opts : BFSOptions T) : Except String (BfsResult T) :=
  let startNode : Option (Node T) :=
    match start with
    | Sum.inl id => findNodeById net id
    | Sum.inr n => some n
  match startNode with
  | none =>
    Except.error ("Start node not found: " ++
      (match start with
       | Sum.inl id => id
       | Sum.inr n => n.id))
  | some s => Except.ok (bfsAux net opts (net.nodes.length + 1) [(s, 0)] [s.id] [] [])

/-- Observation helper: the ids of the traversal output. -/
def bfsIds {T : Type} (net : Network T) (start : Sum String (Node T))
    (opts : BFSOptions T) : Except String (List String) :=
  (bfs net start opts).map (fun r => r.order.map (fun n => n.id))

/-- The start-node resolution of `bfs` (src/src/algorithms/bfs.ts, lines
49-50), as a named function for use in specifications. -/
def resolveStart {T : Type} (net : Network T) (start : Sum String (Node T)) :
    Option (Node T) :=
  match start with
  | Sum.inl i => findNodeById net i
  | Sum.inr n => some n

/-! Concrete scenario material used by the claim theorems, mirroring the
repository's test setups. -/

open NetworkManager

/-- Scenario glue: the network after a `createNode` call, keeping the old
network when the call errs (the concrete scenarios below only use it on
succeeding calls). -/
def afterCreate {T : Type} (net : Network T) (id : String) (d : T)
    (rs : List (Rule T)) : Network T :=
  match createNode net id d rs with
  | Except.ok p => p.1
  | Except.error _ => net

/-- Outgoing-only rule matching everything (test `outgoingAll`). -/
def rOutAll : Rule Nat := { direction := some RuleDirection.outgoing, match_ := fun _ _ => true }

/-- Incoming-only rule matching everything (test `incomingAll`). -/
def rInAll : Rule Nat := { direction := some RuleDirection.incoming, match_ := fun _ _ => true }

/-- Incoming-only rule accepting only while the acceptor's data is `0`. -/
def rIn0 : Rule Nat := { direction := some RuleDirection.incoming, match_ := fun s _ => s == 0 }

/-- Outgoing-only rule initiating only while the initiator's data is `1`. -/
def rOut1 : Rule Nat := { direction := some RuleDirection.outgoing, match_ := fun s _ => s == 1 }

/-- The four rule-less chain nodes of the `maxDepth` test. -/
def chainA : Node Nat := ⟨"a", 1, []⟩

/-- Chain node `b`. -/
def chainB : Node Nat := ⟨"b", 2, []⟩

/-- Chain node `c`. -/
def chainC : Node Nat := ⟨"c", 3, []⟩

/-- Chain node `d`. -/
def chainD : Node Nat := ⟨"d", 4, []⟩

/-- The linear chain `a → b → c → d` of the bfs tests: four rule-less nodes
created through the manager, then manually wired, exactly as the test does. -/
def chainNet : Network Nat :=
  let base := afterCreate (afterCreate (afterCreate (afterCreate
    (Network.empty Nat) "a" 1 []) "b" 2 []) "c" 3 []) "d" 4 []
  ((base.addEdge chainA chainB).addEdge chainB chainC).addEdge chainC chainD

/-- Two-node store with the single edge `a → b`, used to instantiate
hypothesis-bearing theorems. -/
def wNet : Network Nat :=
  (((Network.empty Nat).addNode chainA).addNode chainB).addEdge chainA chainB

/-- Visit hook of the early-stop test: stop at node `b`. -/
def visitStopB : Node Nat → Nat → Option Bool :=
  fun n _ => if n.id == "b" then some false else none

/-- Expand hook of the barrier test: expand everything except node `b`. -/
def expandNotB : Node Nat → Nat → Bool :=
  fun n _ => !(n.id == "b")

/-- A node object that is not part of any store. -/
def zNode : Node Nat := ⟨"zz", 9, []⟩

/-- Node built from a creation specification (id, data, rules). -/
def mkNode {T : Type} (s : String × T × List (Rule T)) : Node T :=
  ⟨s.1, s.2.1, s.2.2⟩

/-- Sequencing of `createNode` calls from a given network, stopping at the
first error (scenario glue for the insertion-order claim). -/
def runCreatesFrom {T : Type} :
    Network T → List (String × T × List (Rule T)) → Except String (Network T)
  | net, [] => Except.ok net
  | net, s :: rest =>
    match NetworkManager.createNode net s.1 s.2.1 s.2.2 with
    | Except.error e => Except.error e
    | Except.ok p => runCreatesFrom p.1 rest

/-- Sequencing of `createNode` calls from the empty network. -/
def runCreates {T : Type} (specs : List (String × T × List (Rule T))) :
    Except String (Network T) :=
  runCreatesFrom (Network.empty T) specs

/-- The manager's materialization invariant: a directed edge `u → v` is
present exactly when two distinct stored nodes carry those ids and their
handshake succeeds against the stored rule sets and data. -/
def pairwiseJustified {T : Type} (net : Network T) : Prop :=
  ∀ u v, (net.hasEdge u v = true) ↔
    ∃ nu ∈ net.nodes, ∃ nv ∈ net.nodes, nu.id = u ∧ nv.id = v ∧ u ≠ v ∧
      NetworkManager.tryHandshake nu nv = true

/-! Basic lemmas about the adjacency association list. -/

theorem edgeMem_nil (u v : String) : edgeMem [] u v = false := rfl

theorem edgeMem_cons_self (k : String) (l : List String)
    (rest : List (String × List String)) (v : String) :
    edgeMem ((k, l) :: rest) k v = l.contains v := by
  simp [edgeMem, lookupAdj]

theorem edgeMem_cons_ne (k : String) (l : List String)
    (rest : List (String × List String)) (u v : String) (hu : k ≠ u) :
    edgeMem ((k, l) :: rest) u v = edgeMem rest u v := by
  simp [edgeMem, lookupAdj, hu]

theorem edgeMem_insertAdj (es : List (String × List String)) (a b u v : String) :
    (edgeMem (insertAdj es a b) u v = true) ↔
      (edgeMem es u v = true ∨ (u = a ∧ v = b)) := by
  induction es with
  | nil =>
    by_cases h : a = u
    · subst h
      simp [insertAdj, edgeMem, lookupAdj, List.elem_iff, eq_comm]
    · have h2 : ¬(u = a ∧ v = b) := fun hc => h hc.1.symm
      simp [insertAdj, edgeMem, lookupAdj, h, h2]
  | cons e rest ih =>
    obtain ⟨k, l⟩ := e
    simp only [insertAdj]
    by_cases h : k = a
    · subst h
      rw [if_pos rfl]
      by_cases hu : k = u
      · subst hu
        rw [edgeMem_cons_self, edgeMem_cons_self]
        by_cases hb : l.contains b
        · have hbm : b ∈ l := List.elem_iff.mp hb
          rw [if_pos hb]
          simp only [List.elem_iff, true_and]
          constructor
          · exact Or.inl
          · rintro (hv | hv)
            · exact hv
            · exact hv ▸ hbm
        · rw [if_neg hb]
          simp [List.elem_iff, List.mem_append]
      · rw [edgeMem_cons_ne _ _ _ _ _ hu, edgeMem_cons_ne _ _ _ _ _ hu]
        constructor
        · exact Or.inl
        · rintro (hv | ⟨h1, _⟩)
          · exact hv
          · exact absurd h1.symm hu
    · rw [if_neg h]
      by_cases hu : k = u
      · subst hu
        rw [edgeMem_cons_self, edgeMem_cons_self]
        constructor
        · exact Or.inl
        · rintro (hv | ⟨h1, _⟩)
          · exact hv
          · exact absurd (h1.symm.trans h1) (fun _ => h (h1 ▸ rfl))
      · rw [edgeMem_cons_ne _ _ _ _ _ hu, edgeMem_cons_ne _ _ _ _ _ hu]
        exact ih

theorem edgeMem_removeAdj (es : List (String × List String)) (a b u v : String) :
    (edgeMem (removeAdj es a b) u v = true) ↔
      (edgeMem es u v = true ∧ ¬(u = a ∧ v = b)) := by
  induction es with
  | nil => simp [removeAdj, edgeMem, lookupAdj]
  | cons e rest ih =>
    obtain ⟨k, l⟩ := e
    simp only [removeAdj]
    by_cases h : k = a
    · subst h
      rw [if_pos rfl]
      by_cases hu : k = u
      · subst hu
        rw [edgeMem_cons_self, edgeMem_cons_self]
        simp only [List.elem_iff, List.mem_filter, decide_eq_true_eq]
        tauto
      · rw [edgeMem_cons_ne _ _ _ _ _ hu, edgeMem_cons_ne _ _ _ _ _ hu]
        constructor
        · intro hv
          exact ⟨hv, fun hc => hu hc.1.symm⟩
        · exact And.left
    · rw [if_neg h]
      by_cases hu : k = u
      · subst hu
        rw [edgeMem_cons_self, edgeMem_cons_self]
        constructor
        · intro hv
          exact ⟨hv, fun hc => h hc.1⟩
        · exact And.left
      · rw [edgeMem_cons_ne _ _ _ _ _ hu, edgeMem_cons_ne _ _ _ _ _ hu]
        exact ih

theorem edgeMem_removeNodeEdges (es : List (String × List String)) (i u v : String) :
    (edgeMem ((es.filter (fun e => decide (e.1 ≠ i))).map
        (fun e => (e.1, e.2.filter (fun w => w ≠ i)))) u v = true) ↔
      (edgeMem es u v = true ∧ u ≠ i ∧ v ≠ i) := by
  induction es with
  | nil => simp [edgeMem, lookupAdj]
  | cons e rest ih =>
    obtain ⟨k, l⟩ := e
    by_cases h : k = i
    · subst h
      rw [show List.filter (fun e2 => decide (e2.1 ≠ k)) ((k, l) :: rest) =
          List.filter (fun e2 => decide (e2.1 ≠ k)) rest by
            simp [List.filter_cons]]
      rw [ih]
      by_cases hu : k = u
      · subst hu
        simp [edgeMem_cons_self]
      · rw [edgeMem_cons_ne _ _ _ _ _ hu]
    · rw [show List.filter (fun e2 => decide (e2.1 ≠ i)) ((k, l) :: rest) =
          (k, l) :: List.filter (fun e2 => decide (e2.1 ≠ i)) rest by
            simp [List.filter_cons, h]]
      rw [List.map_cons]
      by_cases hu : k = u
      · subst hu
        rw [edgeMem_cons_self, edgeMem_cons_self]
        simp only [List.elem_iff, List.mem_filter, decide_eq_true_eq]
        constructor
        · rintro ⟨hv, hvi⟩
          exact ⟨hv, h, hvi⟩
        · rintro ⟨hv, _, hvi⟩
          exact ⟨hv, hvi⟩
      · rw [edgeMem_cons_ne _ _ _ _ _ hu, edgeMem_cons_ne _ _ _ _ _ hu]
        exact ih

/-! Lemmas about the store operations. -/

theorem Network.addNode_edges {T : Type} (net : Network T) (n : Node T) :
    (net.addNode n).edges = net.edges := by
  unfold Network.addNode
  split <;> rfl

theorem Network.hasEdge_addEdge {T : Type} (net : Network T) (a b : Node T)
    (u v : String) :
    ((net.addEdge a b).hasEdge u v = true) ↔
      (net.hasEdge u v = true ∨ (u = a.id ∧ v = b.id)) := by
  simp only [Network.addEdge, Network.hasEdge, Network.addNode_edges]
  exact edgeMem_insertAdj net.edges a.id b.id u v

theorem Network.hasEdge_removeEdge {T : Type} (net : Network T) (a b : Node T)
    (u v : String) :
    ((net.removeEdge a b).hasEdge u v = true) ↔
      (net.hasEdge u v = true ∧ ¬(u = a.id ∧ v = b.id)) := by
  simp only [Network.removeEdge, Network.hasEdge]
  exact edgeMem_removeAdj net.edges a.id b.id u v

theorem Network.hasEdge_removeNode {T : Type} (net : Network T) (n : Node T)
    (u v : String) :
    ((net.removeNode n).hasEdge u v = true) ↔
      (net.hasEdge u v = true ∧ u ≠ n.id ∧ v ≠ n.id) := by
  simp only [Network.removeNode, Network.hasEdge]
  exact edgeMem_removeNodeEdges net.edges n.id u v

theorem Network.addNode_of_present {T : Type} (net : Network T) (n : Node T)
    (h : ∃ x ∈ net.nodes, x.id = n.id) : net.addNode n = net := by
  unfold Network.addNode
  rw [if_pos]
  rw [List.any_eq_true]
  obtain ⟨x, hx, hid⟩ := h
  exact ⟨x, hx, beq_iff_eq.mpr hid⟩

theorem Network.addEdge_nodes {T : Type} (net : Network T) (a b : Node T)
    (ha : ∃ x ∈ net.nodes, x.id = a.id) (hb : ∃ x ∈ net.nodes, x.id = b.id) :
    (net.addEdge a b).nodes = net.nodes := by
  unfold Network.addEdge
  rw [Network.addNode_of_present net a ha, Network.addNode_of_present net b hb]

/-! Lemmas about the handshake sweep. -/

namespace NetworkManager

/-- The contribution of one sweep iteration to the edge predicate. -/
def sweepCond {T : Type} (node o : Node T) (u v : String) : Prop :=
  o.id ≠ node.id ∧
    ((u = node.id ∧ v = o.id ∧ tryHandshake node o = true) ∨
     (u = o.id ∧ v = node.id ∧ tryHandshake o node = true))

theorem sweepStep_hasEdge {T : Type} (node : Node T) (acc : Network T)
    (o : Node T) (u v : String) :
    ((sweepStep node acc o).hasEdge u v = true) ↔
      (acc.hasEdge u v = true ∨ sweepCond node o u v) := by
  unfold sweepStep sweepCond
  by_cases hid : o.id = node.id
  · rw [if_pos (beq_iff_eq.mpr hid)]
    simp [hid]
  · rw [if_neg (by simpa using hid)]
    by_cases h1 : tryHandshake node o <;> by_cases h2 : tryHandshake o node <;>
      simp only [h1, h2, if_true, if_false, Bool.false_eq_true, if_neg,
        Network.hasEdge_addEdge] <;> tauto

theorem sweepStep_nodes {T : Type} (node : Node T) (acc : Network T)
    (o : Node T) (hn : ∃ x ∈ acc.nodes, x.id = node.id)
    (ho : ∃ x ∈ acc.nodes, x.id = o.id) :
    (sweepStep node acc o).nodes = acc.nodes := by
  unfold sweepStep
  by_cases hid : o.id == node.id
  · rw [if_pos hid]
  · rw [if_neg hid]
    by_cases h1 : tryHandshake node o <;> by_cases h2 : tryHandshake o node <;>
      simp only [h1, h2, if_true, if_false, Bool.false_eq_true, if_neg]
    · have e1 : (acc.addEdge node o).nodes = acc.nodes :=
        Network.addEdge_nodes acc node o hn ho
      rw [Network.addEdge_nodes _ o node (e1 ▸ ho) (e1 ▸ hn), e1]
    · exact Network.addEdge_nodes acc node o hn ho
    · exact Network.addEdge_nodes acc o node ho hn

theorem sweepFold_hasEdge {T : Type} (node : Node T) (L : List (Node T)) :
    ∀ (acc : Network T) (u v : String),
    (((L.foldl (sweepStep node) acc).hasEdge u v = true) ↔
      (acc.hasEdge u v = true ∨ ∃ o ∈ L, sweepCond node o u v)) := by
  induction L with
  | nil => simp
  | cons o L ih =>
    intro acc u v
    rw [List.foldl_cons, ih, sweepStep_hasEdge]
    constructor
    · rintro ((ha | hc) | ⟨o2, ho2, hc⟩)
      · exact Or.inl ha
      · exact Or.inr ⟨o, List.mem_cons_self o L, hc⟩
      · exact Or.inr ⟨o2, List.mem_cons_of_mem o ho2, hc⟩
    · rintro (ha | ⟨o2, ho2, hc⟩)
      · exact Or.inl (Or.inl ha)
      · rcases List.mem_cons.mp ho2 with h2 | h2
        · exact Or.inl (Or.inr (h2 ▸ hc))
        · exact Or.inr ⟨o2, h2, hc⟩

theorem sweepFold_nodes {T : Type} (node : Node T) (L : List (Node T)) :
    ∀ (acc : Network T), (∃ x ∈ acc.nodes, x.id = node.id) →
    (∀ o ∈ L, ∃ x ∈ acc.nodes, x.id = o.id) →
    (L.foldl (sweepStep node) acc).nodes = acc.nodes := by
  induction L with
  | nil => intro acc _ _; rfl
  | cons o L ih =>
    intro acc hn ho
    rw [List.foldl_cons]
    have hstep : (sweepStep node acc o).nodes = acc.nodes :=
      sweepStep_nodes node acc o hn (ho o (List.mem_cons_self o L))
    rw [ih (sweepStep node acc o) (hstep ▸ hn)
      (fun o2 h2 => hstep ▸ ho o2 (List.mem_cons_of_mem o h2)), hstep]

theorem sweepEdges_hasEdge {T : Type} (net : Network T) (node : Node T)
    (u v : String) :
    ((sweepEdges net node).hasEdge u v = true) ↔
      (net.hasEdge u v = true ∨ ∃ o ∈ net.nodes, sweepCond node o u v) := by
  unfold sweepEdges
  exact sweepFold_hasEdge node net.nodes net u v

theorem sweepEdges_nodes {T : Type} (net : Network T) (node : Node T)
    (hn : ∃ x ∈ net.nodes, x.id = node.id) :
    (sweepEdges net node).nodes = net.nodes := by
  unfold sweepEdges
  exact sweepFold_nodes node net.nodes net hn (fun o ho => ⟨o, ho, rfl⟩)

/-- A missing id makes the store insertion a plain append. -/
theorem addNode_of_findNode_none {T : Type} (net : Network T) (n : Node T)
    (h : findNode net n.id = none) :
    net.addNode n = { net with nodes := net.nodes ++ [n] } := by
  unfold Network.addNode
  rw [if_neg]
  intro hany
  obtain ⟨x, hx, hid⟩ := List.any_eq_true.mp hany
  have := List.find?_eq_none.mp h x hx
  exact this hid

/-- Unfolding of a succeeding `createNode` call. -/
theorem createNode_ok {T : Type} (net : Network T) (id : String) (d : T)
    (rs : List (Rule T)) (h1 : id ≠ "") (h2 : findNode net id = none) :
    createNode net id d rs =
      Except.ok (sweepEdges { net with nodes := net.nodes ++ [⟨id, d, rs⟩] }
        ⟨id, d, rs⟩, ⟨id, d, rs⟩) := by
  unfold createNode
  rw [if_neg h1, if_neg (by rw [h2]; simp)]
  show Except.ok (sweepEdges (net.addNode ⟨id, d, rs⟩) ⟨id, d, rs⟩,
    (⟨id, d, rs⟩ : Node T)) = _
  rw [addNode_of_findNode_none net ⟨id, d, rs⟩ h2]

/-! The specification's handshake condition, written from the words of spec
section 4.1, to be compared with the source-derived `tryHandshake`. -/

/-- Specification predicate (spec section 4.1, condition 1): the rule has
direction Outgoing or Both (defaulting to Both when absent), its
`target_filter`, if present, returns true for the target's data, and
`match(source.data, target.data)` returns true. -/
def specInitiates {T : Type} (source target : Node T) (r : Rule T) : Prop :=
  (dirOf r = RuleDirection.outgoing ∨ dirOf r = RuleDirection.both) ∧
  (∀ f, r.targetFilter = some f → f target.data = true) ∧
  r.match_ source.data target.data = true

/-- Specification predicate (spec section 4.1, condition 2): the rule has
direction Incoming or Both and `match(target.data, source.data)` returns
true; no `target_filter` is consulted. -/
def specAccepts {T : Type} (source target : Node T) (r : Rule T) : Prop :=
  (dirOf r = RuleDirection.incoming ∨ dirOf r = RuleDirection.both) ∧
  r.match_ target.data source.data = true

/-- Specification predicate (spec section 4.1): the edge source→target is
justified iff source has an initiating rule for target and target has an
accepting rule for source. -/
def specHandshake {T : Type} (source target : Node T) : Prop :=
  (∃ r ∈ source.rules, specInitiates source target r) ∧
  (∃ r ∈ target.rules, specAccepts source target r)

theorem notIncoming_iff {T : Type} (r : Rule T) :
    ((match dirOf r with
      | RuleDirection.incoming => false
      | _ => true) = true) ↔
      (dirOf r = RuleDirection.outgoing ∨ dirOf r = RuleDirection.both) := by
  cases h : dirOf r <;> simp

theorem notOutgoing_iff {T : Type} (r : Rule T) :
    ((match dirOf r with
      | RuleDirection.outgoing => false
      | _ => true) = true) ↔
      (dirOf r = RuleDirection.incoming ∨ dirOf r = RuleDirection.both) := by
  cases h : dirOf r <;> simp

theorem filterPass_iff {T : Type} (r : Rule T) (x : T) :
    ((match r.targetFilter with
      | some f => f x
      | none => true) = true) ↔
      (∀ f, r.targetFilter = some f → f x = true) := by
  cases h : r.targetFilter <;> simp

end NetworkManager

/-! Claim theorems. -/

/-- C1: for every pair of distinct nodes, `tryHandshake source target`
returns true iff source has a rule with direction Outgoing or Both (Both
when absent) whose targetFilter, if present, accepts target's data and
whose match of (source.data, target.data) holds, and target has a rule with
direction Incoming or Both whose match of (target.data, source.data) holds,
the targetFilter never being consulted on the accepting side. -/
theorem claim1_tryHandshake_iff_spec {T : Type} (source target : Node T)
    (h : source.id ≠ target.id) :
    (NetworkManager.tryHandshake source target = true) ↔
      NetworkManager.specHandshake source target := by
  unfold NetworkManager.tryHandshake NetworkManager.specHandshake
  rw [List.any_eq_true]
  constructor
  · rintro ⟨sRule, hs, hb⟩
    simp only [Bool.and_eq_true, List.any_eq_true] at hb
    obtain ⟨⟨⟨hdir, hfil⟩, hmatch⟩, tRule, ht, hadir, hamatch⟩ := hb
    exact ⟨⟨sRule, hs, (NetworkManager.notIncoming_iff sRule).mp hdir,
        (NetworkManager.filterPass_iff sRule target.data).mp hfil, hmatch⟩,
      ⟨tRule, ht, (NetworkManager.notOutgoing_iff tRule).mp hadir, hamatch⟩⟩
  · rintro ⟨⟨sRule, hs, hdir, hfil, hmatch⟩, tRule, ht, hadir, hamatch⟩
    refine ⟨sRule, hs, ?_⟩
    simp only [Bool.and_eq_true, List.any_eq_true]
    exact ⟨⟨⟨(NetworkManager.notIncoming_iff sRule).mpr hdir,
      (NetworkManager.filterPass_iff sRule target.data).mpr hfil⟩, hmatch⟩,
      tRule, ht, (NetworkManager.notOutgoing_iff tRule).mpr hadir, hamatch⟩

/-- Witness for C1 at the outgoing-only/incoming-only pair of the tests. -/
theorem claim1_tryHandshake_iff_spec_witness :
    ("a" : String) ≠ "b" ∧
      ((NetworkManager.tryHandshake (⟨"a", 0, [rOutAll]⟩ : Node Nat)
          ⟨"b", 0, [rInAll]⟩ = true) ↔
        NetworkManager.specHandshake (⟨"a", 0, [rOutAll]⟩ : Node Nat)
          ⟨"b", 0, [rInAll]⟩) :=
  ⟨by decide, claim1_tryHandshake_iff_spec ⟨"a", 0, [rOutAll]⟩
    ⟨"b", 0, [rInAll]⟩ (by decide)⟩

/-- C5: `createNode` errs on an empty id and on a present id (with the
duplicate message naming the id once the empty-id check passes),
`updateNodeData` errs on an absent id, and `bfs` errs on an unknown start
id with a message identifying that id. In this embedding every error case
returns `Except.error` without producing any successor network, so the
caller's network is left completely unchanged: each check precedes all
mutation, exactly as in the source, where the throws sit before any store
operation. -/
theorem claim5_errors_before_mutation {T : Type} (net : Network T)
    (id : String) (d : T) (rs : List (Rule T)) (opts : BFSOptions T) :
    (NetworkManager.createNode net "" d rs = Except.error "Id is required") ∧
    ((NetworkManager.findNode net id).isSome = true →
      ∃ e, NetworkManager.createNode net id d rs = Except.error e) ∧
    (id ≠ "" → (NetworkManager.findNode net id).isSome = true →
      NetworkManager.createNode net id d rs =
        Except.error ("Duplicate node id: " ++ id)) ∧
    (NetworkManager.findNode net id = none →
      NetworkManager.updateNodeData net id d =
        Except.error ("No such node: " ++ id)) ∧
    (NetworkManager.findNode net id = none →
      bfs net (Sum.inl id) opts =
        Except.error ("Start node not found: " ++ id)) := by
  refine ⟨?_, ?_, ?_, ?_, ?_⟩
  · unfold NetworkManager.createNode
    rw [if_pos rfl]
  · intro hp
    by_cases h0 : id = ""
    · subst h0
      exact ⟨"Id is required", by unfold NetworkManager.createNode; rw [if_pos rfl]⟩
    · refine ⟨"Duplicate node id: " ++ id, ?_⟩
      unfold NetworkManager.createNode
      rw [if_neg h0, if_pos hp]
  · intro h0 hp
    unfold NetworkManager.createNode
    rw [if_neg h0, if_pos hp]
  · intro h
    unfold NetworkManager.updateNodeData
    rw [h]
  · intro h
    have h2 : List.find? (fun n => n.id == id) net.nodes = none := h
    simp [bfs, findNodeById, h2]

/-- Witness for C5: all four error cases on the concrete two-node store. -/
theorem claim5_errors_before_mutation_witness :
    (NetworkManager.findNode wNet "a").isSome = true ∧
    ("a" : String) ≠ "" ∧
    NetworkManager.findNode wNet "zz" = none ∧
    NetworkManager.createNode wNet "" 0 [] = Except.error "Id is required" ∧
    NetworkManager.createNode wNet "a" 0 [] =
      Except.error ("Duplicate node id: " ++ "a") ∧
    NetworkManager.updateNodeData wNet "zz" 0 =
      Except.error ("No such node: " ++ "zz") ∧
    bfs wNet (Sum.inl "zz") {} =
      Except.error ("Start node not found: " ++ "zz") :=
  ⟨rfl, by decide, rfl,
    (claim5_errors_before_mutation wNet "a" 0 [] {}).1,
    (claim5_errors_before_mutation wNet "a" 0 [] {}).2.2.1 (by decide) rfl,
    (claim5_errors_before_mutation wNet "zz" 0 [] {}).2.2.2.1 rfl,
    (claim5_errors_before_mutation wNet "zz" 0 [] {}).2.2.2.2 rfl⟩

/-- C4: `removeNode` on an absent id is a no-op leaving the state equal, and
on a present id it removes exactly the edges incident to that id (leaving
every edge between other pairs untouched) and deletes the node, keeping all
other nodes. -/
theorem claim4_removeNode_spec {T : Type} (net : Network T) (id : String) :
    (NetworkManager.findNode net id = none →
      NetworkManager.removeNode net id = net) ∧
    (∀ node, NetworkManager.findNode net id = some node →
      (∀ u v, (((NetworkManager.removeNode net id).hasEdge u v) = true) ↔
          (net.hasEdge u v = true ∧ u ≠ id ∧ v ≠ id)) ∧
      NetworkManager.findNode (NetworkManager.removeNode net id) id = none ∧
      (∀ n, n ∈ (NetworkManager.removeNode net id).nodes ↔
        (n ∈ net.nodes ∧ n.id ≠ id))) := by
  constructor
  · intro h
    unfold NetworkManager.removeNode
    rw [h]
  · intro node hfind
    have hfind2 : List.find? (fun n => n.id == id) net.nodes = some node := hfind
    have hp : (node.id == id) = true :=
      @List.find?_some (Node T) (fun n => n.id == id) node net.nodes hfind2
    have hid : node.id = id := beq_iff_eq.mp hp
    have hrm : NetworkManager.removeNode net id = net.removeNode node := by
      unfold NetworkManager.removeNode
      rw [hfind]
    refine ⟨?_, ?_, ?_⟩
    · intro u v
      rw [hrm, ← hid]
      exact Network.hasEdge_removeNode net node u v
    · rw [hrm]
      apply List.find?_eq_none.mpr
      intro x hx
      have hx2 := (List.mem_filter.mp hx).2
      simp only [decide_eq_true_eq] at hx2
      simp [hid ▸ hx2]
    · intro n
      rw [hrm]
      show n ∈ net.nodes.filter _ ↔ _
      rw [List.mem_filter]
      simp [hid]

/-- Witness for C4: both the absent-id no-op and the present-id removal on
the concrete two-node store. -/
theorem claim4_removeNode_spec_witness :
    NetworkManager.findNode wNet "zz" = none ∧
    NetworkManager.removeNode wNet "zz" = wNet ∧
    NetworkManager.findNode wNet "a" = some chainA ∧
    (((NetworkManager.removeNode wNet "a").hasEdge "a" "b") = true ↔
      (wNet.hasEdge "a" "b" = true ∧ "a" ≠ "a" ∧ "b" ≠ "a")) :=
  ⟨rfl, (claim4_removeNode_spec wNet "zz").1 rfl, rfl,
    ((claim4_removeNode_spec wNet "a").2 chainA rfl).1 "a" "b"⟩

/-- C2: evaluation of the code at the failing input. Node `n` (data 0,
incoming-only rule accepting while its data is 0) receives the edge `x → n`
from node `x` (outgoing-only rule matching always). `updateNodeData n 1`
consults only `adjacent n` — the outgoing successors of `n`, of which there
are none — so the incoming edge `x → n` is never removed, yet the handshake
of `x` against the updated `n` is false. The claim (and the method's own
documentation, which promises to remove all edges touching the node) says
the incident edges after the call are exactly the justified ones; the edge
`x → n` remains although unjustified. -/
theorem claim2_updateNodeData_stale_incoming_edge :
    ∃ (mA : Network Nat) (nA : Node Nat) (mB : Network Nat) (nB : Node Nat)
      (m1 : Network Nat),
      NetworkManager.createNode (Network.empty Nat) "n" 0 [rIn0] =
        Except.ok (mA, nA) ∧
      NetworkManager.createNode mA "x" 5 [rOutAll] = Except.ok (mB, nB) ∧
      mB.hasEdge "x" "n" = true ∧
      NetworkManager.updateNodeData mB "n" 1 = Except.ok m1 ∧
      NetworkManager.findNode m1 "x" = some ⟨"x", 5, [rOutAll]⟩ ∧
      NetworkManager.findNode m1 "n" = some ⟨"n", 1, [rIn0]⟩ ∧
      NetworkManager.tryHandshake (⟨"x", 5, [rOutAll]⟩ : Node Nat)
        ⟨"n", 1, [rIn0]⟩ = false ∧
      m1.hasEdge "x" "n" = true :=
  ⟨_, _, _, _, _, rfl, rfl, rfl, rfl, rfl, rfl, rfl, rfl⟩

/-- C6: evaluation of the code at the failing input. With `n` carrying an
incoming rule accepting while its data is 0 and an outgoing rule initiating
while its data is 1, and `x` accepting and initiating always, creation of
`n` (data 0) then `x` yields the single edge `x → n`. The first
`updateNodeData n 1` removes nothing (`n` has no outgoing successors),
leaves the now-stale `x → n` and adds `n → x`; the second identical call
sees `x` in `n`'s adjacency, removes both `n → x` and `x → n`, and re-adds
only `n → x`. The edge sets after one and after two identical calls
differ, refuting idempotence. -/
theorem claim6_updateNodeData_not_idempotent :
    ∃ (mA : Network Nat) (nA : Node Nat) (mB : Network Nat) (nB : Node Nat)
      (m1 m2 : Network Nat),
      NetworkManager.createNode (Network.empty Nat) "n" 0 [rIn0, rOut1] =
        Except.ok (mA, nA) ∧
      NetworkManager.createNode mA "x" 5 [rOutAll, rInAll] =
        Except.ok (mB, nB) ∧
      NetworkManager.updateNodeData mB "n" 1 = Except.ok m1 ∧
      NetworkManager.updateNodeData m1 "n" 1 = Except.ok m2 ∧
      m1.hasEdge "x" "n" = true ∧
      m2.hasEdge "x" "n" = false ∧
      m1.hasEdge "n" "x" = true ∧
      m2.hasEdge "n" "x" = true :=
  ⟨_, _, _, _, _, _, rfl, rfl, rfl, rfl, rfl, rfl, rfl, rfl⟩

/-! Lemmas for the insertion-order claim. -/

theorem sweep_preserves_justified {T : Type} (net : Network T) (node : Node T)
    (hfresh : node.id ∉ net.nodes.map Node.id)
    (hj : pairwiseJustified net) :
    pairwiseJustified
      (NetworkManager.sweepEdges { net with nodes := net.nodes ++ [node] } node) := by
  have hnodes : (NetworkManager.sweepEdges
      { net with nodes := net.nodes ++ [node] } node).nodes = net.nodes ++ [node] :=
    NetworkManager.sweepEdges_nodes _ _ ⟨node, by simp, rfl⟩
  intro u v
  rw [NetworkManager.sweepEdges_hasEdge, hnodes]
  have hE : ({ net with nodes := net.nodes ++ [node] } : Network T).hasEdge u v =
      net.hasEdge u v := rfl
  rw [hE, hj u v]
  have hidne : ∀ x ∈ net.nodes, x.id ≠ node.id := by
    intro x hx hc
    exact hfresh (hc ▸ List.mem_map_of_mem Node.id hx)
  constructor
  · rintro (⟨nu, hnu, nv, hnv, hu, hv, hne, hh⟩ | ⟨o, ho, hoid, hcond⟩)
    · exact ⟨nu, List.mem_append_left _ hnu, nv, List.mem_append_left _ hnv,
        hu, hv, hne, hh⟩
    · have ho2 : o ∈ net.nodes := by
        rcases List.mem_append.mp ho with h | h
        · exact h
        · exact absurd (by simpa using h : o = node) (fun hc => hoid (hc ▸ rfl))
      rcases hcond with ⟨h1, h2, h3⟩ | ⟨h1, h2, h3⟩
      · exact ⟨node, List.mem_append_right _ (by simp), o,
          List.mem_append_left _ ho2, h1.symm, h2.symm,
          by rw [h1, h2]; exact fun hc => hoid hc.symm, h3⟩
      · exact ⟨o, List.mem_append_left _ ho2, node,
          List.mem_append_right _ (by simp), h1.symm, h2.symm,
          by rw [h1, h2]; exact hoid, h3⟩
  · rintro ⟨nu, hnu, nv, hnv, hu, hv, hne, hh⟩
    rcases List.mem_append.mp hnu with h1 | h1 <;>
      rcases List.mem_append.mp hnv with h2 | h2
    · exact Or.inl ⟨nu, h1, nv, h2, hu, hv, hne, hh⟩
    · have hv2 : nv = node := by simpa using h2
      subst hv2
      exact Or.inr ⟨nu, List.mem_append_left _ h1,
        hidne nu h1, Or.inr ⟨hu.symm, hv.symm, hh⟩⟩
    · have hu2 : nu = node := by simpa using h1
      subst hu2
      exact Or.inr ⟨nv, List.mem_append_left _ h2,
        hidne nv h2, Or.inl ⟨hu.symm, hv.symm, hh⟩⟩
    · have hu2 : nu = node := by simpa using h1
      have hv2 : nv = node := by simpa using h2
      subst hu2
      exact absurd (hu.symm.trans (hv2 ▸ hv)) hne

theorem pairwiseJustified_empty (T : Type) : pairwiseJustified (Network.empty T) := by
  intro u v
  constructor
  · intro h
    exact absurd h (by simp [Network.empty, Network.hasEdge, edgeMem, lookupAdj])
  · rintro ⟨nu, hnu, _⟩
    exact absurd hnu (by simp [Network.empty])

theorem runCreatesFrom_spec {T : Type} :
    ∀ (specs : List (String × T × List (Rule T))) (net : Network T),
      (∀ s ∈ specs, s.1 ≠ "") →
      ((net.nodes.map Node.id ++ specs.map (fun s => s.1)).Nodup) →
      pairwiseJustified net →
      ∃ m, runCreatesFrom net specs = Except.ok m ∧
        m.nodes = net.nodes ++ specs.map mkNode ∧ pairwiseJustified m := by
  intro specs
  induction specs with
  | nil =>
    intro net _ _ h3
    exact ⟨net, rfl, by simp [runCreatesFrom], h3⟩
  | cons s rest ih =>
    intro net h1 h2 h3
    have hfresh : s.1 ∉ net.nodes.map Node.id := by
      have hdisj := (List.nodup_append.mp h2).2.2
      intro hc
      exact hdisj hc (List.mem_cons_self _ _)
    have hfind : NetworkManager.findNode net s.1 = none := by
      apply List.find?_eq_none.mpr
      intro x hx hc
      exact hfresh ((beq_iff_eq.mp hc) ▸ List.mem_map_of_mem Node.id hx)
    have hne : s.1 ≠ "" := h1 s (List.mem_cons_self _ _)
    have hstep := NetworkManager.createNode_ok net s.1 s.2.1 s.2.2 hne hfind
    have hm1nodes : (NetworkManager.sweepEdges
        { net with nodes := net.nodes ++ [mkNode s] } (mkNode s)).nodes =
        net.nodes ++ [mkNode s] :=
      NetworkManager.sweepEdges_nodes _ _ ⟨mkNode s, by simp, rfl⟩
    have hm1just : pairwiseJustified (NetworkManager.sweepEdges
        { net with nodes := net.nodes ++ [mkNode s] } (mkNode s)) :=
      sweep_preserves_justified net (mkNode s) hfresh h3
    have h2' : (((NetworkManager.sweepEdges
        { net with nodes := net.nodes ++ [mkNode s] } (mkNode s)).nodes.map
          Node.id ++ rest.map (fun s => s.1)).Nodup) := by
      rw [hm1nodes]
      have : (net.nodes ++ [mkNode s]).map Node.id ++ rest.map (fun s => s.1) =
          net.nodes.map Node.id ++ (s.1 :: rest.map (fun s => s.1)) := by
        simp [mkNode]
      rw [this]
      exact h2
    obtain ⟨m, hrun, hnodes, hjust⟩ := ih
      (NetworkManager.sweepEdges { net with nodes := net.nodes ++ [mkNode s] }
        (mkNode s))
      (fun s2 hs2 => h1 s2 (List.mem_cons_of_mem s hs2)) h2' hm1just
    refine ⟨m, ?_, ?_, hjust⟩
    · show (match NetworkManager.createNode net s.1 s.2.1 s.2.2 with
        | Except.error e => Except.error e
        | Except.ok p => runCreatesFrom p.1 rest) = Except.ok m
      rw [hstep]
      exact hrun
    · rw [hnodes, hm1nodes]
      simp

/-- C3: for any sequence of node creations with distinct nonempty ids and
no intervening data mutation, the resulting edge `u → v` exists iff the two
stored nodes handshake against their creation-time rule sets and data, and
any permutation of the creation sequence succeeds with exactly the same
edge set. -/
theorem claim3_insertion_order_irrelevant {T : Type}
    (specs : List (String × T × List (Rule T)))
    (h1 : ∀ s ∈ specs, s.1 ≠ "")
    (h2 : (specs.map (fun s => s.1)).Nodup) :
    ∃ m, runCreates specs = Except.ok m ∧
      m.nodes = specs.map mkNode ∧
      pairwiseJustified m ∧
      (∀ specs2, specs.Perm specs2 →
        ∃ m2, runCreates specs2 = Except.ok m2 ∧
          ∀ u v, m2.hasEdge u v = m.hasEdge u v) := by
  obtain ⟨m, hrun, hnodes, hjust⟩ := runCreatesFrom_spec specs (Network.empty T)
    h1 (by simpa [Network.empty] using h2) (pairwiseJustified_empty T)
  refine ⟨m, hrun, by simpa [Network.empty] using hnodes, hjust, ?_⟩
  intro specs2 hperm
  have h1' : ∀ s ∈ specs2, s.1 ≠ "" := fun s hs => h1 s (hperm.mem_iff.mpr hs)
  have h2' : (specs2.map (fun s => s.1)).Nodup := (hperm.map _).nodup h2
  obtain ⟨m2, hrun2, hnodes2, hjust2⟩ := runCreatesFrom_spec specs2
    (Network.empty T) h1' (by simpa [Network.empty] using h2')
    (pairwiseJustified_empty T)
  refine ⟨m2, hrun2, ?_⟩
  intro u v
  have hmem : ∀ x, x ∈ m2.nodes ↔ x ∈ m.nodes := by
    intro x
    rw [show m2.nodes = specs2.map mkNode by simpa [Network.empty] using hnodes2,
      show m.nodes = specs.map mkNode by simpa [Network.empty] using hnodes]
    exact (hperm.map mkNode).symm.mem_iff
  apply Bool.coe_iff_coe.mp
  rw [hjust2 u v, hjust u v]
  constructor
  · rintro ⟨nu, hnu, nv, hnv, rest⟩
    exact ⟨nu, (hmem nu).mp hnu, nv, (hmem nv).mp hnv, rest⟩
  · rintro ⟨nu, hnu, nv, hnv, rest⟩
    exact ⟨nu, (hmem nu).mpr hnu, nv, (hmem nv).mpr hnv, rest⟩

/-! Lemmas about the traversal loop. -/

theorem bfsAux_nil {T : Type} (net : Network T) (opts : BFSOptions T)
    (fuel : Nat) (visited : List String) (order : List (Node T))
    (calls : List (Node T × Nat)) :
    bfsAux net opts fuel [] visited order calls = ⟨order, calls⟩ := by
  cases fuel <;> rfl

theorem bfsStep_maxDepth_le {T : Type} (net : Network T) (opts : BFSOptions T)
    (m : Nat) (node : Node T) (depth : Nat) (visited : List String)
    (queue : List (Node T × Nat)) (hm : opts.maxDepth = some m)
    (hd : m ≤ depth) :
    bfsStep net opts node depth visited queue = (visited, queue) := by
  unfold bfsStep
  rw [hm]
  simp [hd]

theorem bfsStep_expand_false {T : Type} (net : Network T) (opts : BFSOptions T)
    (e : Node T → Nat → Bool) (node : Node T) (depth : Nat)
    (visited : List String) (queue : List (Node T × Nat))
    (he : opts.expand = some e) (hef : e node depth = false) :
    bfsStep net opts node depth visited queue = (visited, queue) := by
  unfold bfsStep
  rw [he]
  split_ifs with h1 h2
  · rfl
  · rfl
  · exfalso
    apply h2
    show (!(e node depth)) = true
    rw [hef]
    rfl

theorem bfsStep_adjacent_none {T : Type} (net : Network T)
    (opts : BFSOptions T) (node : Node T) (depth : Nat)
    (visited : List String) (queue : List (Node T × Nat))
    (h : net.adjacent node = none) :
    bfsStep net opts node depth visited queue = (visited, queue) := by
  unfold bfsStep
  rw [h]
  split_ifs <;> rfl

theorem bfsAux_order_extend {T : Type} (net : Network T) (opts : BFSOptions T) :
    ∀ (fuel : Nat) (queue : List (Node T × Nat)) (visited : List String)
      (order : List (Node T)) (calls : List (Node T × Nat)),
      ∃ t, (bfsAux net opts fuel queue visited order calls).order = order ++ t := by
  intro fuel
  induction fuel with
  | zero =>
    intro queue visited order calls
    exact ⟨[], by simp [bfsAux]⟩
  | succ fuel ih =>
    intro queue visited order calls
    cases queue with
    | nil => exact ⟨[], by simp [bfsAux_nil]⟩
    | cons head rest =>
      obtain ⟨node, depth⟩ := head
      simp only [bfsAux]
      cases hv : opts.visit with
      | some v =>
        by_cases hstop : (v node depth == some false) = true
        · exact ⟨[node], by simp [hstop]⟩
        · simp only [hstop, if_false, Bool.false_eq_true]
          obtain ⟨t, ht⟩ := ih (bfsStep net opts node depth visited rest).2
            (bfsStep net opts node depth visited rest).1 (order ++ [node])
            (calls ++ [(node, depth)])
          exact ⟨[node] ++ t, by rw [ht]; simp⟩
      | none =>
        obtain ⟨t, ht⟩ := ih (bfsStep net opts node depth visited rest).2
          (bfsStep net opts node depth visited rest).1 (order ++ [node]) calls
        exact ⟨[node] ++ t, by rw [ht]; simp⟩

theorem bfs_ok_inversion {T : Type} (net : Network T)
    (start : Sum String (Node T)) (opts : BFSOptions T) (r : BfsResult T)
    (hb : bfs net start opts = Except.ok r) :
    ∃ s, resolveStart net start = some s ∧
      r = bfsAux net opts (net.nodes.length + 1) [(s, 0)] [s.id] [] [] := by
  unfold bfs at hb
  unfold resolveStart
  cases hs : (match start with
      | Sum.inl i => findNodeById net i
      | Sum.inr n => some n) with
  | none => simp [hs] at hb
  | some s =>
    simp only [hs] at hb
    refine ⟨s, rfl, ?_⟩
    injection hb with h
    exact h.symm

theorem bfsAux_start_head {T : Type} (net : Network T) (opts : BFSOptions T)
    (s : Node T) (fuel : Nat) (visited : List String) :
    (bfsAux net opts (fuel + 1) [(s, 0)] visited [] []).order.head? = some s := by
  simp only [bfsAux]
  cases hv : opts.visit with
  | some v =>
    by_cases hstop : (v s 0 == some false) = true
    · simp [hstop]
    · simp only [hstop, if_false, Bool.false_eq_true]
      obtain ⟨t, ht⟩ := bfsAux_order_extend net opts fuel
        (bfsStep net opts s 0 visited []).2 (bfsStep net opts s 0 visited []).1
        ([] ++ [s]) ([] ++ [(s, 0)])
      rw [ht]
      simp
  | none =>
    obtain ⟨t, ht⟩ := bfsAux_order_extend net opts fuel
      (bfsStep net opts s 0 visited []).2 (bfsStep net opts s 0 visited []).1
      ([] ++ [s]) []
    rw [ht]
    simp

/-- Witness for C3: the outgoing/incoming pair of the spec's example,
created in both orders. -/
theorem claim3_insertion_order_irrelevant_witness :
    ∃ m, runCreates [("a", (0 : Nat), [rOutAll]), ("b", 0, [rInAll])] =
        Except.ok m ∧
      m.nodes = [("a", (0 : Nat), [rOutAll]), ("b", 0, [rInAll])].map mkNode ∧
      pairwiseJustified m ∧
      (∀ specs2, [("a", (0 : Nat), [rOutAll]), ("b", 0, [rInAll])].Perm specs2 →
        ∃ m2, runCreates specs2 = Except.ok m2 ∧
          ∀ u v, m2.hasEdge u v = m.hasEdge u v) :=
  claim3_insertion_order_irrelevant _ (by decide) (by decide)

/-- C7: when `maxDepth` is supplied, the post-visit step of a node whose
depth is at least `maxDepth` enqueues nothing (the node itself, having been
dequeued, is already appended to the output and visited); on the linear
chain a→b→c→d of the tests, traversal from `a` returns exactly `[a, b]`
with `maxDepth` 1 and exactly `[a, b, c]` with `maxDepth` 2. -/
theorem claim7_bfs_maxDepth :
    (∀ (T : Type) (net : Network T) (opts : BFSOptions T) (m : Nat)
       (node : Node T) (depth : Nat) (visited : List String)
       (queue : List (Node T × Nat)),
      opts.maxDepth = some m → m ≤ depth →
      bfsStep net opts node depth visited queue = (visited, queue)) ∧
    bfsIds chainNet (Sum.inl "a") { maxDepth := some 1 } =
      Except.ok ["a", "b"] ∧
    bfsIds chainNet (Sum.inl "a") { maxDepth := some 2 } =
      Except.ok ["a", "b", "c"] := by
  refine ⟨?_, rfl, rfl⟩
  intro T net opts m node depth visited queue hm hd
  exact bfsStep_maxDepth_le net opts m node depth visited queue hm hd

/-- Witness for C7: the step of node `b` at depth 1 with `maxDepth` 1 on the
chain leaves the visited set and queue untouched. -/
theorem claim7_bfs_maxDepth_witness :
    ({ maxDepth := some 1 } : BFSOptions Nat).maxDepth = some 1 ∧ 1 ≤ 1 ∧
    bfsStep chainNet { maxDepth := some 1 } chainB 1 ["a", "b"] [] =
      (["a", "b"], []) :=
  ⟨rfl, Nat.le_refl 1,
    claim7_bfs_maxDepth.1 Nat chainNet { maxDepth := some 1 } 1 chainB 1
      ["a", "b"] [] rfl (Nat.le_refl 1)⟩

/-- C10: a traversal whose start is a node object (rather than an id) never
raises the start-not-found error, even when the node is absent from the
store; and when the store has no adjacency entry for the node the returned
sequence is exactly the one-element sequence holding the start node. -/
theorem claim10_bfs_node_start :
    ∀ (T : Type) (net : Network T) (n : Node T) (opts : BFSOptions T),
      (∃ r, bfs net (Sum.inr n) opts = Except.ok r) ∧
      (net.adjacent n = none →
        ∃ r, bfs net (Sum.inr n) opts = Except.ok r ∧ r.order = [n]) := by
  intro T net n opts
  constructor
  · exact ⟨_, rfl⟩
  · intro hadj
    refine ⟨_, rfl, ?_⟩
    have hstep : bfsStep net opts n 0 [n.id] [] = ([n.id], []) :=
      bfsStep_adjacent_none net opts n 0 [n.id] [] hadj
    show (bfsAux net opts (net.nodes.length + 1) [(n, 0)] [n.id] [] []).order = [n]
    simp only [bfsAux, hstep]
    cases hv : opts.visit with
    | some v =>
      by_cases hstop : (v n 0 == some false) = true
      · simp [hstop]
      · simp [hstop, bfsAux_nil]
    | none => simp [bfsAux_nil]

/-- Witness for C10: the foreign node `zz` against the chain store. -/
theorem claim10_bfs_node_start_witness :
    chainNet.adjacent zNode = none ∧
    (∃ r, bfs chainNet (Sum.inr zNode) {} = Except.ok r ∧ r.order = [zNode]) :=
  ⟨rfl, (claim10_bfs_node_start Nat chainNet zNode {}).2 rfl⟩

theorem bfsAux_calls_order {T : Type} (net : Network T) (opts : BFSOptions T)
    (v : Node T → Nat → Option Bool) (hv : opts.visit = some v) :
    ∀ (fuel : Nat) (queue : List (Node T × Nat)) (visited : List String)
      (order : List (Node T)) (calls : List (Node T × Nat)),
      calls.map (fun c => c.1.id) = order.map Node.id →
      ((bfsAux net opts fuel queue visited order calls).calls.map
          (fun c => c.1.id)) =
        ((bfsAux net opts fuel queue visited order calls).order.map Node.id) := by
  intro fuel
  induction fuel with
  | zero =>
    intro queue visited order calls h
    simpa [bfsAux] using h
  | succ fuel ih =>
    intro queue visited order calls h
    cases queue with
    | nil => simpa [bfsAux_nil] using h
    | cons head rest =>
      obtain ⟨node, depth⟩ := head
      simp only [bfsAux, hv]
      by_cases hstop : (v node depth == some false) = true
      · simp [hstop, h]
      · simp only [hstop, if_false, Bool.false_eq_true]
        exact ih _ _ _ _ (by simp [h])

theorem bfsAux_stop_immediate {T : Type} (net : Network T)
    (opts : BFSOptions T) (v : Node T → Nat → Option Bool)
    (hv : opts.visit = some v) :
    ∀ (fuel : Nat) (queue : List (Node T × Nat)) (visited : List String)
      (order : List (Node T)) (calls : List (Node T × Nat)),
      (∀ c ∈ calls, ¬(v c.1 c.2 = some false)) →
      ∀ c ∈ (bfsAux net opts fuel queue visited order calls).calls.dropLast,
        ¬(v c.1 c.2 = some false) := by
  intro fuel
  induction fuel with
  | zero =>
    intro queue visited order calls h c hc
    exact h c (List.mem_of_mem_dropLast (by simpa [bfsAux] using hc))
  | succ fuel ih =>
    intro queue visited order calls h
    cases queue with
    | nil =>
      intro c hc
      exact h c (List.mem_of_mem_dropLast (by simpa [bfsAux_nil] using hc))
    | cons head rest =>
      obtain ⟨node, depth⟩ := head
      simp only [bfsAux, hv]
      by_cases hstop : (v node depth == some false) = true
      · simp only [hstop, if_true]
        intro c hc
        rw [show (calls ++ [(node, depth)]).dropLast = calls from
          List.dropLast_concat] at hc
        exact h c hc
      · simp only [hstop, if_false, Bool.false_eq_true]
        apply ih
        intro c hc
        rcases List.mem_append.mp hc with h2 | h2
        · exact h c h2
        · have : c = (node, depth) := by simpa using h2
          subst this
          exact fun hc2 => hstop (beq_iff_eq.mpr hc2)

/-- C8: with a `visit` hook supplied, the trace of `visit` invocations
corresponds one-to-one, in order, with the output sequence (each node of
the output is visited exactly once, right after being appended and before
its neighbors are considered), and no invocation other than the final one
returned the stop signal `false` — traversal ends immediately at the node
that triggers the stop. On the chain a→b→c→d, stopping at `b` returns
exactly `[a, b]`: the stop node is included and `c`, `d`, reachable only
through its unexplored neighbors, are excluded. -/
theorem claim8_bfs_visit_contract :
    (∀ (T : Type) (net : Network T) (opts : BFSOptions T)
       (v : Node T → Nat → Option Bool), opts.visit = some v →
       ∀ (start : Sum String (Node T)) (r : BfsResult T),
         bfs net start opts = Except.ok r →
         (r.calls.map (fun c => c.1.id) = r.order.map Node.id ∧
          ∀ c ∈ r.calls.dropLast, ¬(v c.1 c.2 = some false))) ∧
    bfsIds chainNet (Sum.inl "a") { visit := some visitStopB } =
      Except.ok ["a", "b"] := by
  refine ⟨?_, rfl⟩
  intro T net opts v hv start r hb
  obtain ⟨s, _, hr⟩ := bfs_ok_inversion net start opts r hb
  subst hr
  exact ⟨bfsAux_calls_order net opts v hv _ _ _ _ _ rfl,
    bfsAux_stop_immediate net opts v hv _ _ _ _ _ (by simp)⟩

/-- Witness for C8: the stop-at-b traversal of the chain. -/
theorem claim8_bfs_visit_contract_witness :
    ({ visit := some visitStopB } : BFSOptions Nat).visit = some visitStopB ∧
    (∃ r, bfs chainNet (Sum.inl "a") { visit := some visitStopB } =
        Except.ok r ∧
      r.calls.map (fun c => c.1.id) = r.order.map Node.id ∧
      ∀ c ∈ r.calls.dropLast, ¬(visitStopB c.1 c.2 = some false)) := by
  refine ⟨rfl, ⟨_, rfl, ?_⟩⟩
  exact claim8_bfs_visit_contract.1 Nat chainNet { visit := some visitStopB }
    visitStopB rfl (Sum.inl "a") _ rfl

theorem enqueueNeighbors_inv {T : Type} :
    ∀ (adj : List (Node T)) (visited : List String)
      (queue : List (Node T × Nat)) (depth : Nat) (pre : List String),
      ((pre ++ queue.map (fun q => q.1.id)).Nodup) →
      (∀ i ∈ pre ++ queue.map (fun q => q.1.id), visited.contains i = true) →
      (((pre ++ ((enqueueNeighbors adj visited queue depth).2.map
          (fun q => q.1.id))).Nodup) ∧
       (∀ i ∈ pre ++ (enqueueNeighbors adj visited queue depth).2.map
          (fun q => q.1.id),
         (enqueueNeighbors adj visited queue depth).1.contains i = true)) := by
  intro adj
  induction adj with
  | nil =>
    intro visited queue depth pre h1 h2
    exact ⟨h1, h2⟩
  | cons next adj ih =>
    intro visited queue depth pre h1 h2
    by_cases hc : visited.contains next.id = true
    · have hcm : next.id ∈ visited := List.elem_iff.mp hc
      have heq : enqueueNeighbors (next :: adj) visited queue depth =
          enqueueNeighbors adj visited queue depth := by
        unfold enqueueNeighbors
        rw [List.foldl_cons]
        simp [hcm]
      rw [heq]
      exact ih visited queue depth pre h1 h2
    · have hcm : next.id ∉ visited := fun hm => hc (List.elem_iff.mpr hm)
      have heq : enqueueNeighbors (next :: adj) visited queue depth =
          enqueueNeighbors adj (visited ++ [next.id])
            (queue ++ [(next, depth + 1)]) depth := by
        unfold enqueueNeighbors
        rw [List.foldl_cons]
        simp [hcm]
      rw [heq]
      have hshape : (pre ++ (queue ++ [(next, depth + 1)]).map
          (fun q => q.1.id)) =
          (pre ++ queue.map (fun q => q.1.id)) ++ [next.id] := by simp
      apply ih
      · rw [hshape]
        have hni : next.id ∉ pre ++ queue.map (fun q => q.1.id) := by
          intro hmem
          exact hc (h2 next.id hmem)
        rw [List.nodup_append]
        exact ⟨h1, List.nodup_singleton next.id,
          by simpa [List.disjoint_singleton] using hni⟩
      · intro i hi
        rw [hshape] at hi
        rcases List.mem_append.mp hi with h3 | h3
        · have : i ∈ visited := List.elem_iff.mp (h2 i h3)
          exact List.elem_iff.mpr (List.mem_append_left _ this)
        · have : i = next.id := by simpa using h3
          subst this
          exact List.elem_iff.mpr (List.mem_append_right _ (by simp))

theorem bfsStep_inv {T : Type} (net : Network T) (opts : BFSOptions T)
    (node : Node T) (depth : Nat) (visited : List String)
    (queue : List (Node T × Nat)) (pre : List String)
    (h1 : (pre ++ queue.map (fun q => q.1.id)).Nodup)
    (h2 : ∀ i ∈ pre ++ queue.map (fun q => q.1.id), visited.contains i = true) :
    ((pre ++ (bfsStep net opts node depth visited queue).2.map
        (fun q => q.1.id)).Nodup) ∧
    (∀ i ∈ pre ++ (bfsStep net opts node depth visited queue).2.map
        (fun q => q.1.id),
      (bfsStep net opts node depth visited queue).1.contains i = true) := by
  unfold bfsStep
  split_ifs with c1 c2
  · exact ⟨h1, h2⟩
  · exact ⟨h1, h2⟩
  · rcases hadj : net.adjacent node with _ | adj
    · exact ⟨h1, h2⟩
    · exact enqueueNeighbors_inv adj visited queue depth pre h1 h2

theorem bfsAux_nodup {T : Type} (net : Network T) (opts : BFSOptions T) :
    ∀ (fuel : Nat) (queue : List (Node T × Nat)) (visited : List String)
      (order : List (Node T)) (calls : List (Node T × Nat)),
      ((order.map Node.id ++ queue.map (fun q => q.1.id)).Nodup) →
      (∀ i ∈ order.map Node.id ++ queue.map (fun q => q.1.id),
        visited.contains i = true) →
      ((bfsAux net opts fuel queue visited order calls).order.map Node.id).Nodup := by
  intro fuel
  induction fuel with
  | zero =>
    intro queue visited order calls h1 _
    simpa [bfsAux] using h1.of_append_left
  | succ fuel ih =>
    intro queue visited order calls h1 h2
    cases queue with
    | nil =>
      rw [bfsAux_nil]
      simpa using h1.of_append_left
    | cons head rest =>
      obtain ⟨node, depth⟩ := head
      have hkey : (order.map Node.id ++
          ((node, depth) :: rest).map (fun q => q.1.id)) =
          ((order ++ [node]).map Node.id ++ rest.map (fun q => q.1.id)) := by
        simp
      rw [hkey] at h1 h2
      simp only [bfsAux]
      cases hv : opts.visit with
      | some v =>
        by_cases hstop : (v node depth == some false) = true
        · simp only [hstop, if_true]
          exact h1.of_append_left
        · simp only [hstop, if_false, Bool.false_eq_true]
          exact ih _ _ _ _
            (bfsStep_inv net opts node depth visited rest _ h1 h2).1
            (bfsStep_inv net opts node depth visited rest _ h1 h2).2
      | none =>
        exact ih _ _ _ _
          (bfsStep_inv net opts node depth visited rest _ h1 h2).1
          (bfsStep_inv net opts node depth visited rest _ h1 h2).2

/-- C9: every successful traversal starts its output with the resolved
start node and visits each node at most once (the output ids are without
duplicates); a node for which the `expand` hook returns false contributes
no neighbors to the queue while remaining in the output itself — on the
chain a→b→c→d with the barrier at `b`, traversal from `a` returns exactly
`[a, b]`. -/
theorem claim9_bfs_start_nodup_barrier :
    (∀ (T : Type) (net : Network T) (start : Sum String (Node T))
       (opts : BFSOptions T) (r : BfsResult T),
      bfs net start opts = Except.ok r →
      ∃ s, resolveStart net start = some s ∧
        r.order.head? = some s ∧ (r.order.map Node.id).Nodup) ∧
    (∀ (T : Type) (net : Network T) (opts : BFSOptions T)
       (e : Node T → Nat → Bool) (node : Node T) (depth : Nat)
       (visited : List String) (queue : List (Node T × Nat)),
      opts.expand = some e → e node depth = false →
      bfsStep net opts node depth visited queue = (visited, queue)) ∧
    bfsIds chainNet (Sum.inl "a") { expand := some expandNotB } =
      Except.ok ["a", "b"] := by
  refine ⟨?_, ?_, rfl⟩
  · intro T net start opts r hb
    obtain ⟨s, hs, hr⟩ := bfs_ok_inversion net start opts r hb
    subst hr
    refine ⟨s, hs, bfsAux_start_head net opts s net.nodes.length [s.id], ?_⟩
    apply bfsAux_nodup net opts _ _ _ _ _ (by simp)
    intro i hi
    have : i = s.id := by simpa using hi
    subst this
    exact List.elem_iff.mpr (by simp)
  · intro T net opts e node depth visited queue he hef
    exact bfsStep_expand_false net opts e node depth visited queue he hef

/-- Witness for C9: the chain traversal from `a` and the barrier step at
`b`. -/
theorem claim9_bfs_start_nodup_barrier_witness :
    (∃ r, bfs chainNet (Sum.inl "a") {} = Except.ok r ∧
      ∃ s, resolveStart chainNet (Sum.inl "a") = some s ∧
        r.order.head? = some s ∧ (r.order.map Node.id).Nodup) ∧
    ({ expand := some expandNotB } : BFSOptions Nat).expand =
      some expandNotB ∧
    expandNotB chainB 1 = false ∧
    bfsStep chainNet { expand := some expandNotB } chainB 1 ["a", "b"] [] =
      (["a", "b"], []) :=
  ⟨⟨_, rfl, claim9_bfs_start_nodup_barrier.1 Nat chainNet (Sum.inl "a") {} _
      rfl⟩,
    rfl, rfl,
    claim9_bfs_start_nodup_barrier.2.1 Nat chainNet
      { expand := some expandNotB } expandNotB chainB 1 ["a", "b"] [] rfl rfl⟩

end BedrockNetwork
